import Mathlib

/-!
Verification of the star-destroyer import analysis engine.

Python strings are modelled as lists of characters (`Str`); Python sets as
`Finset` or membership-dedup'd lists; Python dicts as association lists.
Every definition below is a direct translation of the corresponding
function in star_destroyer.py or scanner.py (the file is named at each
definition).
-/

/-- A Python string, modelled as its list of characters. -/
abbrev Str := List Char

/-- Python s.split('.'): splits a string at every dot.  Matches Python
semantics: the empty string splits to one empty piece, and a trailing or
leading dot produces an empty piece. -/
def splitDot : Str → List Str
  | [] => [[]]
  | c :: t =>
    if c = '.' then [] :: splitDot t
    else
      match splitDot t with
      | [] => [[c]]
      | h :: r => (c :: h) :: r

/-- Python '.'.join(parts). -/
def joinDot : List Str → Str
  | [] => []
  | [p] => p
  | p :: q :: t => p ++ '.' :: joinDot (q :: t)

theorem splitDot_ne_nil (s : Str) : splitDot s ≠ [] := by
  induction s with
  | nil => simp [splitDot]
  | cons c t ih =>
    simp only [splitDot]
    split
    · simp
    · split
      · simp
      · simp

theorem splitDot_cons_dot (t : Str) : splitDot ('.' :: t) = [] :: splitDot t := by
  simp [splitDot]

theorem splitDot_cons_ne (c : Char) (t : Str) (hc : ¬ c = '.') (h0 : Str)
    (r : List Str) (hsp : splitDot t = h0 :: r) :
    splitDot (c :: t) = (c :: h0) :: r := by
  simp only [splitDot, if_neg hc, hsp]

theorem not_dot_mem_splitDot (s : Str) : ∀ p ∈ splitDot s, '.' ∉ p := by
  induction s with
  | nil => intro p hp; simp [splitDot] at hp; simp [hp]
  | cons c t ih =>
    intro p hp
    by_cases hc : c = '.'
    · subst hc
      rw [splitDot_cons_dot] at hp
      simp only [List.mem_cons] at hp
      rcases hp with hp | hp
      · simp [hp]
      · exact ih p hp
    · rcases hsp : splitDot t with _ | ⟨h0, r⟩
      · exact absurd hsp (splitDot_ne_nil t)
      · rw [splitDot_cons_ne c t hc h0 r hsp] at hp
        simp only [List.mem_cons] at hp
        rcases hp with hp | hp
        · subst hp
          intro hd
          simp only [List.mem_cons] at hd
          rcases hd with hd | hd
          · exact hc hd.symm
          · exact ih h0 (by rw [hsp]; simp) hd
        · exact ih p (by rw [hsp]; simp [hp])

theorem splitDot_no_dot (s : Str) (h : '.' ∉ s) : splitDot s = [s] := by
  induction s with
  | nil => rfl
  | cons c t ih =>
    simp at h
    exact splitDot_cons_ne c t (fun hce => h.1 hce.symm) t [] (ih h.2)

theorem splitDot_append_dot (p t : Str) (h : '.' ∉ p) :
    splitDot (p ++ '.' :: t) = p :: splitDot t := by
  induction p with
  | nil => exact splitDot_cons_dot t
  | cons c q ih =>
    simp at h
    have hrec := ih h.2
    show splitDot (c :: (q ++ '.' :: t)) = (c :: q) :: splitDot t
    exact splitDot_cons_ne c (q ++ '.' :: t) (fun hce => h.1 hce.symm) q
      (splitDot t) hrec

theorem joinDot_cons (p : Str) (ps : List Str) (h : ps ≠ []) :
    joinDot (p :: ps) = p ++ '.' :: joinDot ps := by
  cases ps with
  | nil => exact absurd rfl h
  | cons q t => rfl

theorem splitDot_joinDot (parts : List Str) (hne : parts ≠ [])
    (hnd : ∀ p ∈ parts, '.' ∉ p) : splitDot (joinDot parts) = parts := by
  induction parts with
  | nil => exact absurd rfl hne
  | cons p ps ih =>
    cases ps with
    | nil =>
      show splitDot (joinDot [p]) = [p]
      exact splitDot_no_dot p (hnd p (by simp))
    | cons q t =>
      rw [joinDot_cons p (q :: t) (by simp)]
      rw [splitDot_append_dot p (joinDot (q :: t)) (hnd p (by simp))]
      rw [ih (by simp) (fun x hx => hnd x (by simp [hx]))]

/-- joinDot of the splitDot pieces restores the string (Python
'.'.join(s.split('.')) == s). -/
theorem joinDot_splitDot (s : Str) : joinDot (splitDot s) = s := by
  induction s with
  | nil => rfl
  | cons c t ih =>
    by_cases hc : c = '.'
    · subst hc
      rw [splitDot_cons_dot, joinDot_cons [] (splitDot t) (splitDot_ne_nil t), ih]
      rfl
    · rcases hsp : splitDot t with _ | ⟨h0, r⟩
      · exact absurd hsp (splitDot_ne_nil t)
      · rw [splitDot_cons_ne c t hc h0 r hsp]
        rw [hsp] at ih
        cases r with
        | nil =>
          show c :: h0 = c :: t
          rw [show joinDot [h0] = h0 from rfl] at ih
          rw [ih]
        | cons r0 rt =>
          rw [joinDot_cons (c :: h0) (r0 :: rt) (by simp)]
          rw [joinDot_cons h0 (r0 :: rt) (by simp)] at ih
          show c :: (h0 ++ '.' :: joinDot (r0 :: rt)) = c :: t
          rw [ih]

/-- resolve_frompath from star_destroyer.py lines 63-69 (identical in
scanner.py lines 33-39): resolves the module path referred to by a
relative import.  A relpath of [] models both an absent (None) and an
empty module fragment, which Python treats identically here (both are
falsy).  Python parts[:-level] for level greater than 0 is
take (length - level), which silently clamps to the empty list when level
is at least the length, exactly as Python slicing does. -/
def resolve_frompath (pkgpath relpath : Str) (level : Nat) : Str :=
  if level = 0 then relpath
  else
    joinDot ((splitDot pkgpath ++ [['_']]).take
               ((splitDot pkgpath ++ [['_']]).length - level) ++
             (if relpath = [] then [] else splitDot relpath))

/-- C5 counterexample: for package path a (depth 1), the relative levels 2
and 3 both exceed the available package depth, yet resolve_frompath
returns normally with the bare fragment x instead of propagating an
error: the over-deep prefix is silently clamped to the empty path. -/
theorem resolve_frompath_overdeep_clamps :
    resolve_frompath ['a'] ['x'] 2 = ['x'] ∧
    resolve_frompath ['a'] ['x'] 3 = ['x'] := by
  constructor <;> rfl

/-- C5 (amended): resolving a relative import appends a sentinel segment
to the package path, strips level trailing segments (one per level of
relativity, the first consuming the sentinel) and appends the explicit
module fragment; when the level exceeds the number of package-path
segments the stripped prefix silently clamps to the empty list and the
function returns just the joined fragment — no error is raised or
propagated. -/
theorem resolve_frompath_overdeep (pkgpath relpath : Str) (level : Nat)
    (h : (splitDot pkgpath).length < level) :
    resolve_frompath pkgpath relpath level =
      joinDot (if relpath = [] then [] else splitDot relpath) := by
  have hlvl : level ≠ 0 := by omega
  unfold resolve_frompath
  rw [if_neg hlvl]
  have htake : (splitDot pkgpath ++ [['_']]).length - level = 0 := by
    simp only [List.length_append, List.length_cons, List.length_nil]
    omega
  rw [htake]
  simp

/-- Witness for the amended C5 theorem at a concrete input: package a,
fragment x, level 2. -/
theorem resolve_frompath_overdeep_witness :
    (splitDot ['a']).length < 2 ∧
    resolve_frompath ['a'] ['x'] 2 =
      joinDot (if (['x'] : Str) = [] then [] else splitDot ['x']) :=
  ⟨by decide, resolve_frompath_overdeep ['a'] ['x'] 2 (by decide)⟩

/-- origin.rsplit('.', 1) for a dotted origin: the text before the last
dot paired with the text after it.  Expressed through splitDot, for which
rsplit with a single-character separator and maxsplit 1 is: join all
pieces but the last, and the last piece. -/
def dotRSplit (s : Str) : Str × Str :=
  (joinDot (splitDot s).dropLast, ((splitDot s).getLast?).getD [])

/-- The import map state {modpath: {name: {origin, ...}}} of class
ImportMap, as an association list; each origin set is carried as a list
(membership is what matters). -/
abbrev ImportMapM := List (Str × List (Str × List Str))

/-- Python dict lookup d.get(k): first matching key, if any. -/
def assocFind {β : Type} (l : List (Str × β)) (k : Str) : Option β :=
  match l with
  | [] => none
  | (k2, v) :: t => if k2 = k then some v else assocFind t k

/-- ImportMap.get_origins (star_destroyer.py lines 185-187, scanner.py
lines 126-128): self.map.get(modpath, {}).get(name, set()). -/
def getOriginsList (imap : ImportMapM) (modpath name : Str) : List Str :=
  match assocFind imap modpath with
  | none => []
  | some entry => (assocFind entry name).getD []

/-- Every origin string stored anywhere in the import map; the finite
universe used by the termination measure of the walk. -/
def allOrigins (imap : ImportMapM) : Finset Str :=
  ((imap.map (fun e => (e.2.map (fun p => p.2)).flatten)).flatten).toFinset

theorem assocFind_eq_some_mem {β : Type} {l : List (Str × β)} {k : Str} {v : β}
    (h : assocFind l k = some v) : (k, v) ∈ l := by
  induction l with
  | nil => simp [assocFind] at h
  | cons e t ih =>
    obtain ⟨k2, v2⟩ := e
    simp only [assocFind] at h
    by_cases hk : k2 = k
    · rw [if_pos hk] at h
      subst hk
      simp only [Option.some.injEq] at h
      subst h
      simp
    · rw [if_neg hk] at h
      simp [ih h]

theorem mem_getOriginsList_mem_allOrigins {imap : ImportMapM} {mp n o : Str}
    (h : o ∈ getOriginsList imap mp n) : o ∈ allOrigins imap := by
  rcases hf : assocFind imap mp with _ | entry
  · unfold getOriginsList at h
    rw [hf] at h
    simp at h
  · have h3 : o ∈ (assocFind entry n).getD [] := by
      unfold getOriginsList at h
      rw [hf] at h
      exact h
    rcases hf2 : assocFind entry n with _ | s
    · rw [hf2] at h3; simp at h3
    · rw [hf2] at h3
      simp only [Option.getD_some] at h3
      rename' h3 => h
      have h1 := assocFind_eq_some_mem hf
      have h2 := assocFind_eq_some_mem hf2
      unfold allOrigins
      rw [List.mem_toFinset, List.mem_flatten]
      refine ⟨(entry.map (fun p => p.2)).flatten, ?_, ?_⟩
      · rw [List.mem_map]
        exact ⟨(mp, entry), h1, rfl⟩
      · rw [List.mem_flatten]
        exact ⟨s, by rw [List.mem_map]; exact ⟨(n, s), h2, rfl⟩, h⟩

theorem walkMeasure_le (A : Finset Str) (o : Str) (rest : List Str)
    (origins origins2 : Finset Str) (hsub : origins ⊆ origins2) :
    ((A ∪ rest.toFinset) \ origins2).card ≤
      ((A ∪ (o :: rest).toFinset) \ origins).card := by
  apply Finset.card_le_card
  apply Finset.sdiff_subset_sdiff _ hsub
  apply Finset.union_subset_union_right
  rw [List.toFinset_cons]
  exact Finset.subset_insert o rest.toFinset

theorem walkMeasure_lt (A : Finset Str) (o : Str) (rest glist : List Str)
    (origins : Finset Str) (ho : o ∉ origins) (hg : glist.toFinset ⊆ A) :
    ((A ∪ glist.toFinset) \ insert o origins).card <
      ((A ∪ (o :: rest).toFinset) \ origins).card := by
  have hAg : A ∪ glist.toFinset = A := Finset.union_eq_left.mpr hg
  rw [hAg]
  apply Finset.card_lt_card
  rw [Finset.ssubset_iff_of_subset
        (Finset.sdiff_subset_sdiff Finset.subset_union_left
          (Finset.subset_insert o origins))]
  refine ⟨o, by simp [ho], by simp⟩

/-- The loop of walk_origins from UsageMap.scan_module (star_destroyer.py
lines 218-225): iterate over a pending list of origins; an origin not yet
in the accumulator is added and, if it is dotted, the walk first recurses
into the direct origins of its rsplit before the loop continues.  The
result carries a proof that the accumulator only grows, which drives the
termination measure (the shared seen-set is exactly what makes the Python
recursion terminate). -/
def goWalk (imap : ImportMapM) :
    (l : List Str) → (origins : Finset Str) → {s : Finset Str // origins ⊆ s}
  | [], origins => ⟨origins, Finset.Subset.refl origins⟩
  | o :: rest, origins =>
    if ho : o ∈ origins then goWalk imap rest origins
    else
      if hd : '.' ∈ o then
        match goWalk imap (getOriginsList imap (dotRSplit o).1 (dotRSplit o).2)
            (insert o origins) with
        | ⟨s, hs⟩ =>
          match goWalk imap rest s with
          | ⟨s2, hs2⟩ =>
            ⟨s2, fun x hx => hs2 (hs (Finset.mem_insert_of_mem hx))⟩
      else
        match goWalk imap rest (insert o origins) with
        | ⟨s2, hs2⟩ => ⟨s2, fun x hx => hs2 (Finset.mem_insert_of_mem hx)⟩
termination_by l origins => (((allOrigins imap ∪ l.toFinset) \ origins).card, l.length)
decreasing_by
  · apply Prod.Lex.right'
    · exact walkMeasure_le _ o rest origins origins (Finset.Subset.refl _)
    · simp
  · apply Prod.Lex.left
    apply walkMeasure_lt _ o rest _ origins ho
    intro x hx
    exact mem_getOriginsList_mem_allOrigins (by simpa using hx)
  · apply Prod.Lex.right'
    · exact walkMeasure_le _ o rest origins s
        (fun x hx => hs (Finset.mem_insert_of_mem hx))
    · simp
  · apply Prod.Lex.right'
    · exact walkMeasure_le _ o rest origins (insert o origins)
        (Finset.subset_insert o origins)
    · simp

theorem goWalk_nil (imap : ImportMapM) (origins : Finset Str) :
    (goWalk imap [] origins).1 = origins := by
  rw [goWalk]

theorem goWalk_cons_skip (imap : ImportMapM) (o : Str) (rest : List Str)
    (origins : Finset Str) (ho : o ∈ origins) :
    (goWalk imap (o :: rest) origins).1 = (goWalk imap rest origins).1 := by
  rw [goWalk, dif_pos ho]

theorem goWalk_cons_dot (imap : ImportMapM) (o : Str) (rest : List Str)
    (origins : Finset Str) (ho : o ∉ origins) (hd : '.' ∈ o) :
    (goWalk imap (o :: rest) origins).1 =
      (goWalk imap rest
        (goWalk imap (getOriginsList imap (dotRSplit o).1 (dotRSplit o).2)
          (insert o origins)).1).1 := by
  rw [goWalk, dif_neg ho, dif_pos hd]

theorem goWalk_cons_nodot (imap : ImportMapM) (o : Str) (rest : List Str)
    (origins : Finset Str) (ho : o ∉ origins) (hd : '.' ∉ o) :
    (goWalk imap (o :: rest) origins).1 =
      (goWalk imap rest (insert o origins)).1 := by
  rw [goWalk, dif_neg ho, dif_neg hd]

/-- Everything in the pending list ends up in the walk result. -/
theorem goWalk_mem_list (imap : ImportMapM) (l : List Str) (origins : Finset Str) :
    ∀ x ∈ l, x ∈ (goWalk imap l origins).1 := by
  induction l, origins using goWalk.induct imap with
  | case1 origins => intro x hx; exact absurd hx (List.not_mem_nil x)
  | case2 o rest origins ho ih =>
    intro x hx
    rw [goWalk_cons_skip imap o rest origins ho]
    rcases List.mem_cons.mp hx with hx | hx
    · subst hx; exact (goWalk imap rest origins).2 ho
    · exact ih x hx
  | case3 o rest origins ho hd s hs heq s2 hs2 heq2 ihg ihr =>
    intro x hx
    rw [goWalk_cons_dot imap o rest origins ho hd]
    have hv : (goWalk imap (getOriginsList imap (dotRSplit o).1 (dotRSplit o).2)
        (insert o origins)).1 = s := by rw [heq]
    rw [hv]
    rcases List.mem_cons.mp hx with hx | hx
    · subst hx
      exact (goWalk imap rest s).2 (hs (Finset.mem_insert_self x origins))
    · exact ihr x hx
  | case4 o rest origins ho hd s2 hs2 heq2 ihr =>
    intro x hx
    rw [goWalk_cons_nodot imap o rest origins ho hd]
    rcases List.mem_cons.mp hx with hx | hx
    · subst hx
      exact (goWalk imap rest (insert x origins)).2 (Finset.mem_insert_self x origins)
    · exact ihr x hx

/-- Every element of the walk result either was in the initial
accumulator or satisfies any property that holds for the pending list and
is preserved by the chase step. -/
theorem goWalk_sound (imap : ImportMapM) (P : Str → Prop)
    (hstep : ∀ p, P p → '.' ∈ p →
      ∀ y ∈ getOriginsList imap (dotRSplit p).1 (dotRSplit p).2, P y)
    (l : List Str) (origins : Finset Str) :
    (∀ x ∈ l, P x) → (∀ x ∈ origins, P x) →
      ∀ x ∈ (goWalk imap l origins).1, P x := by
  induction l, origins using goWalk.induct imap with
  | case1 origins =>
    intro _ hor x hx
    rw [goWalk_nil] at hx
    exact hor x hx
  | case2 o rest origins ho ih =>
    intro hl hor x hx
    rw [goWalk_cons_skip imap o rest origins ho] at hx
    exact ih (fun y hy => hl y (List.mem_cons_of_mem o hy)) hor x hx
  | case3 o rest origins ho hd s hs heq s2 hs2 heq2 ihg ihr =>
    intro hl hor x hx
    rw [goWalk_cons_dot imap o rest origins ho hd] at hx
    have hv : (goWalk imap (getOriginsList imap (dotRSplit o).1 (dotRSplit o).2)
        (insert o origins)).1 = s := by rw [heq]
    rw [hv] at hx
    have hPo : P o := hl o (List.mem_cons_self o rest)
    have hins : ∀ y ∈ insert o origins, P y := by
      intro y hy
      rcases Finset.mem_insert.mp hy with hy | hy
      · subst hy; exact hPo
      · exact hor y hy
    have hsP : ∀ y ∈ s, P y := by
      intro y hy
      have := ihg (fun z hz => hstep o hPo hd z hz) hins y
      rw [hv] at this
      exact this hy
    exact ihr (fun y hy => hl y (List.mem_cons_of_mem o hy)) hsP x hx
  | case4 o rest origins ho hd s2 hs2 heq2 ihr =>
    intro hl hor x hx
    rw [goWalk_cons_nodot imap o rest origins ho hd] at hx
    have hPo : P o := hl o (List.mem_cons_self o rest)
    have hins : ∀ y ∈ insert o origins, P y := by
      intro y hy
      rcases Finset.mem_insert.mp hy with hy | hy
      · subst hy; exact hPo
      · exact hor y hy
    exact ihr (fun y hy => hl y (List.mem_cons_of_mem o hy)) hins x hx

/-- The walk result is closed under one chase step, except possibly at
elements that were already in the initial accumulator. -/
theorem goWalk_closed (imap : ImportMapM) (l : List Str) (origins : Finset Str) :
    ∀ p ∈ (goWalk imap l origins).1, p ∉ origins → '.' ∈ p →
      ∀ y ∈ getOriginsList imap (dotRSplit p).1 (dotRSplit p).2,
        y ∈ (goWalk imap l origins).1 := by
  induction l, origins using goWalk.induct imap with
  | case1 origins =>
    intro p hp hpo
    rw [goWalk_nil] at hp
    exact absurd hp hpo
  | case2 o rest origins ho ih =>
    intro p hp hpo hpd y hy
    rw [goWalk_cons_skip imap o rest origins ho] at hp ⊢
    exact ih p hp hpo hpd y hy
  | case3 o rest origins ho hd s hs heq s2 hs2 heq2 ihg ihr =>
    intro p hp hpo hpd y hy
    rw [goWalk_cons_dot imap o rest origins ho hd] at hp ⊢
    have hv : (goWalk imap (getOriginsList imap (dotRSplit o).1 (dotRSplit o).2)
        (insert o origins)).1 = s := by rw [heq]
    rw [hv] at hp ⊢
    by_cases hps : p ∈ s
    · by_cases hpio : p = o
      · subst hpio
        have hyw : y ∈ (goWalk imap
            (getOriginsList imap (dotRSplit p).1 (dotRSplit p).2)
            (insert p origins)).1 :=
          goWalk_mem_list imap _ (insert p origins) y hy
        rw [hv] at hyw
        exact (goWalk imap rest s).2 hyw
      · have hpins : p ∉ insert o origins := by
          rw [Finset.mem_insert]
          push_neg
          exact ⟨hpio, hpo⟩
        have hin := ihg p (by rw [hv]; exact hps) hpins hpd y hy
        rw [hv] at hin
        exact (goWalk imap rest s).2 hin
    · exact ihr p hp hps hpd y hy
  | case4 o rest origins ho hd s2 hs2 heq2 ihr =>
    intro p hp hpo hpd y hy
    rw [goWalk_cons_nodot imap o rest origins ho hd] at hp ⊢
    by_cases hpi : p ∈ insert o origins
    · rcases Finset.mem_insert.mp hpi with hpi | hpi
      · subst hpi; exact absurd hpd hd
      · exact absurd hpi hpo
    · exact ihr p hp hpi hpd y hy

/-- get_origins from UsageMap.scan_module (star_destroyer.py lines
214-226): origins = set(); walk_origins(modpath, name); return origins. -/
def uGetOrigins (imap : ImportMapM) (modpath name : Str) : Finset Str :=
  (goWalk imap (getOriginsList imap modpath name) ∅).1

/-- The chase relation the specification describes: an origin is
reachable from (modpath, name) if it is a direct origin of that pair in
the import map, or a direct origin of (parent, last_segment) for the
rsplit of some reachable dotted origin. -/
inductive Reaches (imap : ImportMapM) (modpath name : Str) : Str → Prop
  | direct {o : Str} : o ∈ getOriginsList imap modpath name →
      Reaches imap modpath name o
  | chase {p o : Str} : Reaches imap modpath name p → '.' ∈ p →
      o ∈ getOriginsList imap (dotRSplit p).1 (dotRSplit p).2 →
      Reaches imap modpath name o

/-- The seen-set walk of UsageMap.scan_module computes exactly the
origins reachable by chasing the import map. -/
theorem mem_uGetOrigins (imap : ImportMapM) (modpath name o : Str) :
    o ∈ uGetOrigins imap modpath name ↔ Reaches imap modpath name o := by
  constructor
  · intro h
    exact goWalk_sound imap (Reaches imap modpath name)
      (fun p hp hpd y hy => Reaches.chase hp hpd hy)
      (getOriginsList imap modpath name) ∅
      (fun x hx => Reaches.direct hx)
      (fun x hx => absurd hx (Finset.not_mem_empty x)) o h
  · intro h
    induction h with
    | direct hx => exact goWalk_mem_list _ _ _ _ hx
    | chase hp hpd hy ih =>
      exact goWalk_closed imap _ ∅ _ ih (Finset.not_mem_empty _) hpd _ hy

/-- Expression contexts of the syntax model: Load, Store, Del. -/
inductive Ctx where
  | load
  | store
  | del
deriving DecidableEq

/-- The fragment of the syntax model the usage engine dispatches on:
Name and Attribute nodes carry their context; every other node kind is
opaque and only exposes its list of child nodes (for_each_child). -/
inductive PyExpr where
  | name (id : Str) (ctx : Ctx)
  | attribute (value : PyExpr) (attr : Str) (ctx : Ctx)
  | other (children : List PyExpr)

/-- get_origins_for_node from UsageMap.scan_module (star_destroyer.py
lines 228-237): a Name in Load context yields its module-qualified
identity plus the chased origins; an Attribute in Load context unions,
over every parent origin of its value, the dotted attribute plus its
chased origins; anything else yields the empty set. -/
def getOriginsForNode (imap : ImportMapM) (modpath : Str) : PyExpr → Finset Str
  | .name id ctx =>
    match ctx with
    | .load => insert (modpath ++ '.' :: id) (uGetOrigins imap modpath id)
    | _ => ∅
  | .attribute v attr ctx =>
    match ctx with
    | .load =>
      (getOriginsForNode imap modpath v).biUnion
        (fun parent => insert (parent ++ '.' :: attr) (uGetOrigins imap parent attr))
    | _ => ∅
  | .other _ => ∅

/-- get_origins_used_by_node from UsageMap.scan_module (star_destroyer.py
lines 239-247): an Attribute also contributes the origins used while
dereferencing its value subexpression. -/
def getOriginsUsedByNode (imap : ImportMapM) (modpath : Str) : PyExpr → Finset Str
  | .name id ctx => getOriginsForNode imap modpath (.name id ctx)
  | .attribute v attr ctx =>
    getOriginsUsedByNode imap modpath v ∪
      getOriginsForNode imap modpath (.attribute v attr ctx)
  | .other _ => ∅

mutual
/-- scan_loads from UsageMap.scan_module (star_destroyer.py lines
249-252): Name and Attribute nodes contribute their used origins, and
traversal always continues into child nodes (a Name has no expression
children; an Attribute's expression child is its value). -/
def scanLoads (imap : ImportMapM) (modpath : Str) : PyExpr → Finset Str
  | .name id ctx => getOriginsUsedByNode imap modpath (.name id ctx)
  | .attribute v attr ctx =>
    getOriginsUsedByNode imap modpath (.attribute v attr ctx) ∪
      scanLoads imap modpath v
  | .other cs => scanLoadsList imap modpath cs

/-- for_each_child(node, scan_loads) over a list of children. -/
def scanLoadsList (imap : ImportMapM) (modpath : Str) : List PyExpr → Finset Str
  | [] => ∅
  | e :: t => scanLoads imap modpath e ∪ scanLoadsList imap modpath t
end

/-- Python range(1, n) as a list. -/
def pyRange1 (n : Nat) : List Nat := List.range' 1 (n - 1)

/-- The intermediate-origins pass at the end of UsageMap.scan_module
(star_destroyer.py lines 256-261): for every collected origin, every
dotted prefix '.'.join(parts[:i]) for i in range(1, len(parts)). -/
def intermediateOrigins (used : Finset Str) : Finset Str :=
  used.biUnion (fun o =>
    ((pyRange1 (splitDot o).length).map
      (fun i => joinDot ((splitDot o).take i))).toFinset)

/-- UsageMap.scan_module (star_destroyer.py lines 208-261) for one module
whose syntax tree has the given list of top-level children: collect the
used origins of every Name/Attribute load in the tree, then add all
intermediate dotted prefixes. -/
def scanModuleUsed (imap : ImportMapM) (modpath : Str) (body : List PyExpr) :
    Finset Str :=
  let used := scanLoadsList imap modpath body
  used ∪ intermediateOrigins used

/-- C9 (confirmed): during usage scanning of module m, a bare Name node
contributes exactly the module-qualified origin m.n plus every origin
reachable by chasing the import map from (m, n) when its context is Load,
and contributes nothing in any other context. -/
theorem name_load_contribution (imap : ImportMapM) (modpath n : Str)
    (ctx : Ctx) (o : Str) :
    o ∈ getOriginsUsedByNode imap modpath (.name n ctx) ↔
      (ctx = .load ∧ (o = modpath ++ '.' :: n ∨ Reaches imap modpath n o)) := by
  cases ctx with
  | load =>
    simp only [getOriginsUsedByNode, getOriginsForNode, Finset.mem_insert,
      mem_uGetOrigins]
    simp
  | store =>
    simp [getOriginsUsedByNode, getOriginsForNode]
  | del =>
    simp [getOriginsUsedByNode, getOriginsForNode]

theorem splitDot_length_pos (s : Str) : 0 < (splitDot s).length :=
  List.length_pos.mpr (splitDot_ne_nil s)

/-- Membership in the intermediate-origins pass: exactly the dotted
prefixes (of 1 up to all-but-one segments) of collected origins. -/
theorem mem_intermediateOrigins {used : Finset Str} {x : Str} :
    x ∈ intermediateOrigins used ↔
      ∃ o ∈ used, ∃ i, 1 ≤ i ∧ i < (splitDot o).length ∧
        x = joinDot ((splitDot o).take i) := by
  unfold intermediateOrigins
  rw [Finset.mem_biUnion]
  constructor
  · rintro ⟨o, ho, hx⟩
    rw [List.mem_toFinset, List.mem_map] at hx
    rcases hx with ⟨i, hi, rfl⟩
    rw [pyRange1, List.mem_range'_1] at hi
    have := splitDot_length_pos o
    exact ⟨o, ho, i, hi.1, by omega, rfl⟩
  · rintro ⟨o, ho, i, h1, hlt, rfl⟩
    refine ⟨o, ho, ?_⟩
    rw [List.mem_toFinset, List.mem_map]
    refine ⟨i, ?_, rfl⟩
    rw [pyRange1, List.mem_range'_1]
    have := splitDot_length_pos o
    omega

/-- A set of origins is closed under the dotted-prefix relation. -/
def PrefixClosed (S : Finset Str) : Prop :=
  ∀ o ∈ S, ∀ i, 1 ≤ i → i < (splitDot o).length →
    joinDot ((splitDot o).take i) ∈ S

/-- Adding all intermediate dotted prefixes makes any origin set
prefix-closed: a prefix of a prefix is again a prefix. -/
theorem prefixClosed_union_intermediate (used : Finset Str) :
    PrefixClosed (used ∪ intermediateOrigins used) := by
  intro o ho i h1 hi
  rcases Finset.mem_union.mp ho with ho | ho
  · apply Finset.mem_union_right
    rw [mem_intermediateOrigins]
    exact ⟨o, ho, i, h1, hi, rfl⟩
  · rcases mem_intermediateOrigins.mp ho with ⟨o0, ho0, j, hj1, hjlen, rfl⟩
    have hjlen2 : ((splitDot o0).take j).length = j := by
      rw [List.length_take]
      omega
    have hne : (splitDot o0).take j ≠ [] := by
      intro hc
      rw [hc] at hjlen2
      simp at hjlen2
      omega
    have hnd : ∀ p ∈ (splitDot o0).take j, '.' ∉ p := fun p hp =>
      not_dot_mem_splitDot o0 p (List.take_subset j (splitDot o0) hp)
    have hsp : splitDot (joinDot ((splitDot o0).take j)) = (splitDot o0).take j :=
      splitDot_joinDot _ hne hnd
    rw [hsp] at hi ⊢
    rw [hjlen2] at hi
    rw [List.take_take]
    have hmin : min i j = i := by omega
    rw [hmin]
    apply Finset.mem_union_right
    rw [mem_intermediateOrigins]
    exact ⟨o0, ho0, i, h1, by omega, rfl⟩

/-- C1 (amended): the usage set computed per module by
UsageMap.scan_module in star_destroyer.py is closed under the
dotted-prefix relation: whenever an origin is in the set, so is each of
its shorter dotted prefixes.  (The earlier NameResolver.scan_module
revision in scanner.py lacks the intermediate-origins pass and does not
satisfy this; see the counterexample.) -/
theorem scanModuleUsed_prefixClosed (imap : ImportMapM) (modpath : Str)
    (body : List PyExpr) (o : Str) (ho : o ∈ scanModuleUsed imap modpath body)
    (i : Nat) (h1 : 1 ≤ i) (hi : i < (splitDot o).length) :
    joinDot ((splitDot o).take i) ∈ scanModuleUsed imap modpath body :=
  prefixClosed_union_intermediate (scanLoadsList imap modpath body) o ho i h1 hi

theorem uGetOrigins_nil_imap (mp n : Str) : uGetOrigins [] mp n = ∅ :=
  goWalk_nil [] ∅

/-- Witness for the amended C1 theorem: scanning module m whose body
loads the bare name x, the usage set contains the origin m.x, and the
theorem produces its one-segment prefix m inside the same set. -/
theorem scanModuleUsed_prefixClosed_witness :
    (['m', '.', 'x'] : Str) ∈ scanModuleUsed [] ['m'] [.name ['x'] .load] ∧
    joinDot ((splitDot ['m', '.', 'x']).take 1) ∈
      scanModuleUsed [] ['m'] [.name ['x'] .load] := by
  have hused : scanLoadsList [] ['m'] [PyExpr.name ['x'] Ctx.load] =
      {['m', '.', 'x']} := by
    simp [scanLoadsList, scanLoads, getOriginsUsedByNode, getOriginsForNode,
      uGetOrigins_nil_imap]
  have hmem : (['m', '.', 'x'] : Str) ∈
      scanModuleUsed [] ['m'] [.name ['x'] .load] := by
    unfold scanModuleUsed
    rw [hused]
    apply Finset.mem_union_left
    simp
  exact ⟨hmem,
    scanModuleUsed_prefixClosed [] ['m'] [.name ['x'] .load] ['m', '.', 'x']
      hmem 1 (by decide) (by decide)⟩

/-- Python set.add on a membership-dedup'd list. -/
def listInsert (l : List Str) (x : Str) : List Str :=
  if x ∈ l then l else l ++ [x]

/-- Python set.update on a membership-dedup'd list. -/
def listInsertAll (l : List Str) (s : List Str) : List Str :=
  s.foldl listInsert l

/-- The loop of get_origins from NameResolver.scan_module (scanner.py
lines 144-152), step-indexed: the Python original is unboundedly
recursive, so it is modelled with a fuel bound on evaluation steps; on
inputs where the Python code terminates, every large enough fuel returns
its value, and an input on which EVERY fuel yields none is one on which
the Python recursion never terminates.  Unlike the star_destroyer
revision, each nested call starts a FRESH seen set (origins = set() at
the top of every call), so the visited-set guard cannot see origins added
by enclosing calls. -/
def scWalk (imap : ImportMapM) : Nat → List Str → List Str → Option (List Str)
  | 0, _, _ => none
  | _ + 1, [], acc => some acc
  | fuel + 1, o :: rest, acc =>
    if o ∈ acc then scWalk imap fuel rest acc
    else
      if '.' ∈ o then
        match scWalk imap fuel
            (getOriginsList imap (dotRSplit o).1 (dotRSplit o).2) [] with
        | none => none
        | some s => scWalk imap fuel rest (listInsertAll (acc ++ [o]) s)
      else scWalk imap fuel rest (acc ++ [o])

/-- get_origins from NameResolver.scan_module (scanner.py lines 144-152):
origins = set(); loop over the direct origins of (modpath, name). -/
def scGetOrigins (imap : ImportMapM) (fuel : Nat) (mp n : Str) :
    Option (List Str) :=
  scWalk imap fuel (getOriginsList imap mp n) []

/-- The cyclic origin map of the chase-termination property: a binds x
to origin b.x, and b binds x to origin a.x. -/
def cycMap : ImportMapM :=
  [(['a'], [(['x'], [['b', '.', 'x']])]),
   (['b'], [(['x'], [['a', '.', 'x']])])]

theorem scWalk_cycle_none (fuel : Nat) :
    scWalk cycMap fuel [['b', '.', 'x']] [] = none ∧
    scWalk cycMap fuel [['a', '.', 'x']] [] = none := by
  induction fuel with
  | zero => exact ⟨rfl, rfl⟩
  | succ fuel ih =>
    constructor
    · rw [scWalk, if_neg (by decide), if_pos (by decide)]
      rw [show getOriginsList cycMap
            (dotRSplit ['b', '.', 'x']).1 (dotRSplit ['b', '.', 'x']).2 =
          [['a', '.', 'x']] from rfl]
      rw [ih.2]
    · rw [scWalk, if_neg (by decide), if_pos (by decide)]
      rw [show getOriginsList cycMap
            (dotRSplit ['a', '.', 'x']).1 (dotRSplit ['a', '.', 'x']).2 =
          [['b', '.', 'x']] from rfl]
      rw [ih.1]

/-- C2 (code_bug): on the cyclic origin map where module a binds x to
origin b.x and module b binds x to origin a.x, scanner.py's get_origins
never terminates — because every recursive call creates a fresh seen set,
no step budget suffices and the Python process hits its recursion limit —
while star_destroyer.py's walk_origins, whose seen set is shared across
the recursion, terminates on the same input and returns the finite set
containing exactly b.x and a.x. -/
theorem cycle_chase_comparison :
    (∀ fuel, scGetOrigins cycMap fuel ['a'] ['x'] = none) ∧
    uGetOrigins cycMap ['a'] ['x'] = {['b', '.', 'x'], ['a', '.', 'x']} := by
  constructor
  · intro fuel
    show scWalk cycMap fuel [['b', '.', 'x']] [] = none
    exact (scWalk_cycle_none fuel).1
  · calc uGetOrigins cycMap ['a'] ['x']
        = (goWalk cycMap [['b', '.', 'x']] ∅).1 := rfl
      _ = (goWalk cycMap []
            (goWalk cycMap
              (getOriginsList cycMap (dotRSplit ['b', '.', 'x']).1
                (dotRSplit ['b', '.', 'x']).2)
              (insert ['b', '.', 'x'] ∅)).1).1 :=
        goWalk_cons_dot cycMap ['b', '.', 'x'] [] ∅ (by simp) (by decide)
      _ = (goWalk cycMap
            (getOriginsList cycMap (dotRSplit ['b', '.', 'x']).1
              (dotRSplit ['b', '.', 'x']).2)
            (insert ['b', '.', 'x'] ∅)).1 := goWalk_nil cycMap _
      _ = (goWalk cycMap [['a', '.', 'x']] {['b', '.', 'x']}).1 := rfl
      _ = (goWalk cycMap []
            (goWalk cycMap
              (getOriginsList cycMap (dotRSplit ['a', '.', 'x']).1
                (dotRSplit ['a', '.', 'x']).2)
              (insert ['a', '.', 'x'] {['b', '.', 'x']})).1).1 :=
        goWalk_cons_dot cycMap ['a', '.', 'x'] [] {['b', '.', 'x']}
          (by decide) (by decide)
      _ = (goWalk cycMap
            (getOriginsList cycMap (dotRSplit ['a', '.', 'x']).1
              (dotRSplit ['a', '.', 'x']).2)
            (insert ['a', '.', 'x'] {['b', '.', 'x']})).1 := goWalk_nil cycMap _
      _ = (goWalk cycMap [['b', '.', 'x']]
            (insert ['a', '.', 'x'] {['b', '.', 'x']})).1 := rfl
      _ = (goWalk cycMap []
            (insert ['a', '.', 'x'] {['b', '.', 'x']})).1 :=
        goWalk_cons_skip cycMap ['b', '.', 'x'] []
          (insert ['a', '.', 'x'] {['b', '.', 'x']}) (by decide)
      _ = insert ['a', '.', 'x'] {['b', '.', 'x']} := goWalk_nil cycMap _
      _ = {['b', '.', 'x'], ['a', '.', 'x']} := by decide

/-- The parent-fold of scanner.py's get_origins_for_node Attribute case
(scanner.py lines 159-162): for every parent origin of the value
expression, {parent.attr} union chase(parent, attr); a stack overflow in
any chase aborts the whole scan (none). -/
def scAttrFold (imap : ImportMapM) (fuel : Nat) (attr : Str) :
    List Str → List Str → Option (List Str)
  | [], acc => some acc
  | p :: ps, acc =>
    match scGetOrigins imap fuel p attr with
    | none => none
    | some s =>
      scAttrFold imap fuel attr ps
        (listInsertAll (listInsert acc (p ++ '.' :: attr)) s)

/-- get_origins_for_node from NameResolver.scan_module (scanner.py lines
154-163). -/
def scGetOriginsForNode (imap : ImportMapM) (fuel : Nat) (mp : Str) :
    PyExpr → Option (List Str)
  | .name id ctx =>
    match ctx with
    | .load =>
      match scGetOrigins imap fuel mp id with
      | none => none
      | some s => some (listInsertAll [mp ++ '.' :: id] s)
    | _ => some []
  | .attribute v attr ctx =>
    match ctx with
    | .load =>
      match scGetOriginsForNode imap fuel mp v with
      | none => none
      | some parents => scAttrFold imap fuel attr parents []
    | _ => some []
  | .other _ => some []

/-- get_origins_used_by_node from NameResolver.scan_module (scanner.py
lines 165-173). -/
def scGetOriginsUsedByNode (imap : ImportMapM) (fuel : Nat) (mp : Str) :
    PyExpr → Option (List Str)
  | .name id ctx => scGetOriginsForNode imap fuel mp (.name id ctx)
  | .attribute v attr ctx =>
    match scGetOriginsUsedByNode imap fuel mp v with
    | none => none
    | some s1 =>
      match scGetOriginsForNode imap fuel mp (.attribute v attr ctx) with
      | none => none
      | some s2 => some (listInsertAll s1 s2)
  | .other _ => some []

mutual
/-- scan_loads from NameResolver.scan_module (scanner.py lines 175-179):
Name and Attribute nodes contribute their used origins, every OTHER node
recurses into its children (scanner.py has an else branch, so Name and
Attribute children are not traversed again). -/
def scScanLoads (imap : ImportMapM) (fuel : Nat) (mp : Str) :
    PyExpr → List Str → Option (List Str)
  | .name id ctx, used =>
    match scGetOriginsUsedByNode imap fuel mp (.name id ctx) with
    | none => none
    | some s => some (listInsertAll used s)
  | .attribute v attr ctx, used =>
    match scGetOriginsUsedByNode imap fuel mp (.attribute v attr ctx) with
    | none => none
    | some s => some (listInsertAll used s)
  | .other cs, used => scScanLoadsList imap fuel mp cs used

/-- for_each_child over a list of children for scanner.py's scan_loads. -/
def scScanLoadsList (imap : ImportMapM) (fuel : Nat) (mp : Str) :
    List PyExpr → List Str → Option (List Str)
  | [], used => some used
  | e :: t, used =>
    match scScanLoads imap fuel mp e used with
    | none => none
    | some u => scScanLoadsList imap fuel mp t u
end

/-- NameResolver.scan_module (scanner.py lines 138-181) for one module
whose tree has the given top-level children: collect used origins over
the body.  Unlike star_destroyer.py's UsageMap.scan_module, there is no
intermediate-origins pass at the end. -/
def scScanModule (imap : ImportMapM) (fuel : Nat) (mp : Str)
    (body : List PyExpr) : Option (List Str) :=
  scScanLoadsList imap fuel mp body []

/-- C1 counterexample: scanning module m (which binds x to origin p.q)
whose body loads the bare name x, scanner.py's NameResolver.scan_module
completes and returns the usage set containing m.x and p.q — but neither
the prefix p of p.q nor the prefix m of m.x is in the set: the usage map
entry is NOT closed under the dotted-prefix relation in the scanner.py
revision. -/
theorem scScanModule_misses_prefixes :
    scScanModule [(['m'], [(['x'], [['p', '.', 'q']])])] 5 ['m']
        [.name ['x'] .load] =
      some [['m', '.', 'x'], ['p', '.', 'q']] ∧
    (['p', '.', 'q'] : Str) ∈ [(['m', '.', 'x'] : Str), ['p', '.', 'q']] ∧
    (['p'] : Str) ∉ [(['m', '.', 'x'] : Str), ['p', '.', 'q']] ∧
    (['m'] : Str) ∉ [(['m', '.', 'x'] : Str), ['p', '.', 'q']] := by
  exact ⟨rfl, by decide, by decide, by decide⟩

/-- The name-level part of ImportMap.add (star_destroyer.py lines
138-140): setdefault(name, set()).add(origin).  A dict setdefault
appends a missing key; set add deduplicates. -/
def entryAdd (entry : List (Str × List Str)) (n o : Str) :
    List (Str × List Str) :=
  match entry with
  | [] => [(n, [o])]
  | (k, s) :: t =>
    if k = n then (k, listInsert s o) :: t
    else (k, s) :: entryAdd t n o

/-- ImportMap.add (star_destroyer.py lines 138-140):
self.map.setdefault(modpath, {}).setdefault(name, set()).add(origin). -/
def imAdd (imap : ImportMapM) (mp n o : Str) : ImportMapM :=
  match imap with
  | [] => [(mp, [(n, [o])])]
  | (k, entry) :: t =>
    if k = mp then (k, entryAdd entry n o) :: t
    else (k, entry) :: imAdd t mp n o

/-- The loop of add_package_origins (star_destroyer.py lines 142-151):
for each consecutive (parent, child) prefix pair along the dotted path,
if the child is a findable module, bind the segment in the parent. -/
def apoGo (findModule : Str → Bool) (parent : Str) :
    List Str → ImportMapM → ImportMapM
  | [], imap => imap
  | part :: rest, imap =>
    apoGo findModule (parent ++ '.' :: part) rest
      (if findModule (parent ++ '.' :: part)
       then imAdd imap parent part (parent ++ '.' :: part) else imap)

/-- add_package_origins (star_destroyer.py lines 142-151). -/
def addPackageOrigins (findModule : Str → Bool) (imap : ImportMapM)
    (modpath : Str) : ImportMapM :=
  match splitDot modpath with
  | [] => imap
  | p0 :: rest => apoGo findModule p0 rest imap

/-- The successive parent values visited by add_package_origins: every
proper dotted prefix of the path.  These are the only modules in which it
can create bindings. -/
def chainGo (parent : Str) : List Str → List Str
  | [] => []
  | part :: rest => parent :: chainGo (parent ++ '.' :: part) rest

/-- The modules in which add_package_origins for a path can create
bindings. -/
def chainModules (x : Str) : List Str :=
  match splitDot x with
  | [] => []
  | p0 :: rest => chainGo p0 rest

/-- The Import branch of ImportMap.scan_module.scan_imports
(star_destroyer.py lines 157-166): an aliased name binds the alias to the
full dotted path; an unaliased name binds the top segment to itself; then
the implicit package bindings along the imported path are registered. -/
def scanImport (findModule : Str → Bool) (modpath : Str)
    (names : List (Str × Option Str)) (imap : ImportMapM) : ImportMapM :=
  names.foldl (fun m b =>
    addPackageOrigins findModule
      (match b.2 with
       | some asname => imAdd m modpath asname b.1
       | none => imAdd m modpath ((splitDot b.1).headD [])
           ((splitDot b.1).headD [])) b.1) imap

theorem mem_listInsert (l : List Str) (y x : Str) :
    x ∈ listInsert l y ↔ x ∈ l ∨ x = y := by
  unfold listInsert
  by_cases hy : y ∈ l
  · rw [if_pos hy]
    constructor
    · exact Or.inl
    · rintro (hx | rfl)
      · exact hx
      · exact hy
  · rw [if_neg hy]
    simp

theorem assocFind_imAdd_ne (imap : ImportMapM) (mp n o mp2 : Str)
    (h : mp2 ≠ mp) :
    assocFind (imAdd imap mp n o) mp2 = assocFind imap mp2 := by
  induction imap with
  | nil =>
    simp only [imAdd, assocFind]
    rw [if_neg (fun hc => h hc.symm)]
  | cons e t ih =>
    obtain ⟨k, entry⟩ := e
    simp only [imAdd]
    by_cases hk : k = mp
    · rw [if_pos hk]
      simp only [assocFind]
      rw [if_neg (by rw [hk]; exact fun hc => h hc.symm),
          if_neg (by rw [hk]; exact fun hc => h hc.symm)]
    · rw [if_neg hk]
      simp only [assocFind]
      by_cases hk2 : k = mp2
      · rw [if_pos hk2, if_pos hk2]
      · rw [if_neg hk2, if_neg hk2, ih]

theorem assocFind_imAdd_eq (imap : ImportMapM) (mp n o : Str) :
    assocFind (imAdd imap mp n o) mp =
      some (entryAdd ((assocFind imap mp).getD []) n o) := by
  induction imap with
  | nil => simp [imAdd, assocFind, entryAdd]
  | cons e t ih =>
    obtain ⟨k, entry⟩ := e
    simp only [imAdd]
    by_cases hk : k = mp
    · rw [if_pos hk]
      simp only [assocFind]
      rw [if_pos hk, if_pos hk]
      simp
    · rw [if_neg hk]
      simp only [assocFind]
      rw [if_neg hk, if_neg hk, ih]

theorem assocFind_entryAdd_ne (entry : List (Str × List Str)) (n o n2 : Str)
    (h : n2 ≠ n) :
    assocFind (entryAdd entry n o) n2 = assocFind entry n2 := by
  induction entry with
  | nil =>
    simp only [entryAdd, assocFind]
    rw [if_neg (fun hc => h hc.symm)]
  | cons e t ih =>
    obtain ⟨k, s⟩ := e
    simp only [entryAdd]
    by_cases hk : k = n
    · rw [if_pos hk]
      simp only [assocFind]
      rw [if_neg (by rw [hk]; exact fun hc => h hc.symm),
          if_neg (by rw [hk]; exact fun hc => h hc.symm)]
    · rw [if_neg hk]
      simp only [assocFind]
      by_cases hk2 : k = n2
      · rw [if_pos hk2, if_pos hk2]
      · rw [if_neg hk2, if_neg hk2, ih]

theorem assocFind_entryAdd_eq (entry : List (Str × List Str)) (n o : Str) :
    (assocFind (entryAdd entry n o) n).getD [] =
      listInsert ((assocFind entry n).getD []) o := by
  induction entry with
  | nil => simp [entryAdd, assocFind, listInsert]
  | cons e t ih =>
    obtain ⟨k, s⟩ := e
    simp only [entryAdd]
    by_cases hk : k = n
    · rw [if_pos hk]
      simp only [assocFind]
      rw [if_pos hk, if_pos hk]
      simp
    · rw [if_neg hk]
      simp only [assocFind]
      rw [if_neg hk, if_neg hk, ih]

theorem getOriginsList_getD (imap : ImportMapM) (mp n : Str) :
    getOriginsList imap mp n =
      (assocFind ((assocFind imap mp).getD []) n).getD [] := by
  unfold getOriginsList
  rcases assocFind imap mp with _ | entry
  · simp [assocFind]
  · simp

theorem getOriginsList_imAdd_self (imap : ImportMapM) (mp n o : Str) :
    getOriginsList (imAdd imap mp n o) mp n =
      listInsert (getOriginsList imap mp n) o := by
  rw [getOriginsList_getD, assocFind_imAdd_eq]
  simp only [Option.getD_some]
  rw [assocFind_entryAdd_eq, getOriginsList_getD]

theorem getOriginsList_imAdd_ne_name (imap : ImportMapM) (mp n o n2 : Str)
    (h : n2 ≠ n) :
    getOriginsList (imAdd imap mp n o) mp n2 = getOriginsList imap mp n2 := by
  rw [getOriginsList_getD, assocFind_imAdd_eq]
  simp only [Option.getD_some]
  rw [assocFind_entryAdd_ne _ _ _ _ h, getOriginsList_getD]

theorem getOriginsList_imAdd_ne_mod (imap : ImportMapM) (mp n o mp2 n2 : Str)
    (h : mp2 ≠ mp) :
    getOriginsList (imAdd imap mp n o) mp2 n2 = getOriginsList imap mp2 n2 := by
  rw [getOriginsList_getD, assocFind_imAdd_ne _ _ _ _ _ h, getOriginsList_getD]

theorem getOriginsList_apoGo_frame (findModule : Str → Bool) (rest : List Str)
    (parent : Str) (imap : ImportMapM) (mp2 : Str)
    (h : mp2 ∉ chainGo parent rest) (n2 : Str) :
    getOriginsList (apoGo findModule parent rest imap) mp2 n2 =
      getOriginsList imap mp2 n2 := by
  induction rest generalizing parent imap with
  | nil => rfl
  | cons part t ih =>
    simp only [chainGo, List.mem_cons] at h
    push_neg at h
    simp only [apoGo]
    rw [ih (parent ++ '.' :: part) _ h.2]
    by_cases hf : findModule (parent ++ '.' :: part)
    · rw [if_pos hf, getOriginsList_imAdd_ne_mod _ _ _ _ _ _ h.1]
    · rw [if_neg hf]

theorem getOriginsList_addPackageOrigins_frame (findModule : Str → Bool)
    (imap : ImportMapM) (x mp2 : Str) (h : mp2 ∉ chainModules x) (n2 : Str) :
    getOriginsList (addPackageOrigins findModule imap x) mp2 n2 =
      getOriginsList imap mp2 n2 := by
  unfold addPackageOrigins
  unfold chainModules at h
  rcases hsp : splitDot x with _ | ⟨p0, rest⟩
  · rfl
  · rw [hsp] at h
    exact getOriginsList_apoGo_frame findModule rest p0 imap mp2 h n2

/-- C8 (amended): scanning import X as Y in module m adds to m's origin
map entry exactly the binding of Y to the full dotted path X, provided m
is not itself one of the proper dotted prefixes of X (the modules in
which the implicit package bindings of add_package_origins live); in
particular, when Y differs from the top segment of X, no binding of that
top segment is created in m.  (When m IS a proper dotted prefix of X, an
implicit package binding can land in m — see the counterexample.) -/
theorem import_as_binding (findModule : Str → Bool) (imap : ImportMapM)
    (m X Y : Str) (hm : m ∉ chainModules X) (n o : Str) :
    o ∈ getOriginsList (scanImport findModule m [(X, some Y)] imap) m n ↔
      ((n = Y ∧ o = X) ∨ o ∈ getOriginsList imap m n) := by
  show o ∈ getOriginsList
      (addPackageOrigins findModule (imAdd imap m Y X) X) m n ↔ _
  rw [getOriginsList_addPackageOrigins_frame findModule _ X m hm n]
  by_cases hn : n = Y
  · subst hn
    rw [getOriginsList_imAdd_self, mem_listInsert]
    constructor
    · rintro (hx | rfl)
      · exact Or.inr hx
      · exact Or.inl ⟨rfl, rfl⟩
    · rintro (⟨_, rfl⟩ | hx)
      · exact Or.inr rfl
      · exact Or.inl hx
  · rw [getOriginsList_imAdd_ne_name _ _ _ _ _ hn]
    constructor
    · exact Or.inr
    · rintro (⟨rfl, _⟩ | hx)
      · exact absurd rfl hn
      · exact hx

/-- C8 counterexample: scanning import a.a as la inside module a itself
(with the submodule a.a findable), the implicit package bindings of
add_package_origins bind the name a — the top-level segment of the
imported path — in module a, in addition to the alias binding la: the
unconditional no-top-segment-binding claim fails when the importing
module lies on the imported path's prefix chain. -/
theorem import_as_binds_top_segment :
    (['a', '.', 'a'] : Str) ∈
      getOriginsList
        (scanImport (fun _ => true) ['a']
          [(['a', '.', 'a'], some ['l', 'a'])] []) ['a'] ['a'] ∧
    (['a', '.', 'a'] : Str) ∈
      getOriginsList
        (scanImport (fun _ => true) ['a']
          [(['a', '.', 'a'], some ['l', 'a'])] []) ['a'] ['l', 'a'] := by
  decide

/-- Witness for the amended C8 theorem: import n.l as q scanned in module
m (not a prefix of n.l) binds q to n.l in m and creates no binding of the
top segment n in m. -/
theorem import_as_binding_witness :
    (['m'] : Str) ∉ chainModules ['n', '.', 'l'] ∧
    (['n', '.', 'l'] : Str) ∈ getOriginsList
        (scanImport (fun _ => true) ['m'] [(['n', '.', 'l'], some ['q'])] [])
        ['m'] ['q'] ∧
    ¬ (['n', '.', 'l'] : Str) ∈ getOriginsList
        (scanImport (fun _ => true) ['m'] [(['n', '.', 'l'], some ['q'])] [])
        ['m'] ['n'] := by
  have hm : (['m'] : Str) ∉ chainModules ['n', '.', 'l'] := by decide
  refine ⟨hm, ?_, ?_⟩
  · exact (import_as_binding (fun _ => true) [] ['m'] ['n', '.', 'l'] ['q']
      hm ['q'] ['n', '.', 'l']).mpr (Or.inl ⟨rfl, rfl⟩)
  · intro hmem
    rcases (import_as_binding (fun _ => true) [] ['m'] ['n', '.', 'l'] ['q']
        hm ['n'] ['n', '.', 'l']).mp hmem with h | h
    · exact absurd h.1 (by decide)
    · simp [getOriginsList, assocFind] at h

/-- A dynamically loaded module as the Star-Name Oracle sees it: the
optional explicit export list (its __all__ attribute) and its attribute
names (dir(module)). -/
structure PyModule where
  all : Option (List Str)
  dirNames : List Str

/-- getattr(module, '__all__', [name for name in dir(module) if not
name.startswith('_')]). -/
def starExportList (m : PyModule) : List Str :=
  match m.all with
  | some l => l
  | none => m.dirNames.filter (fun n => !(List.isPrefixOf ['_'] n))

/-- Python sorted on a list of strings: a stable ascending sort under the
lexicographic order. -/
def pySorted (l : List Str) : List Str := List.insertionSort (· ≤ ·) l

/-- The observable result of one get_star_names call: the updated cache
(the star_names dict), the returned name list, and whether the
load-failure error was reported. -/
structure StarResult where
  cache : List (Str × List Str)
  names : List Str
  failed : Bool

/-- ImportMap.get_star_names, star_destroyer.py lines 123-136: on a cache
miss the module is loaded (none models ImportError); on failure the error
is reported and [] cached; on success sorted(__all__, or the filtered
dir names) is cached and returned. -/
def getStarNamesSd (importModule : Str → Option PyModule)
    (cache : List (Str × List Str)) (modpath : Str) : StarResult :=
  match assocFind cache modpath with
  | some names => ⟨cache, names, false⟩
  | none =>
    match importModule modpath with
    | none => ⟨(modpath, []) :: cache, [], true⟩
    | some m =>
      ⟨(modpath, pySorted (starExportList m)) :: cache,
       pySorted (starExportList m), false⟩

/-- ImportMap.get_star_names, scanner.py lines 64-77: identical to the
star_destroyer revision except that the name list is NOT sorted. -/
def getStarNamesSc (importModule : Str → Option PyModule)
    (cache : List (Str × List Str)) (modpath : Str) : StarResult :=
  match assocFind cache modpath with
  | some names => ⟨cache, names, false⟩
  | none =>
    match importModule modpath with
    | none => ⟨(modpath, []) :: cache, [], true⟩
    | some m =>
      ⟨(modpath, starExportList m) :: cache, starExportList m, false⟩

/-- C6 counterexample: a module defining the export list [foo, bar] is
not returned verbatim by star_destroyer.py's get_star_names — the
returned list is the sorted [bar, foo]. -/
theorem getStarNamesSd_sorts_all :
    (getStarNamesSd
      (fun _ => some ⟨some [['f', 'o', 'o'], ['b', 'a', 'r']], []⟩)
      [] ['p']).names = [['b', 'a', 'r'], ['f', 'o', 'o']] ∧
    (getStarNamesSd
      (fun _ => some ⟨some [['f', 'o', 'o'], ['b', 'a', 'r']], []⟩)
      [] ['p']).names ≠ [['f', 'o', 'o'], ['b', 'a', 'r']] := by
  constructor
  · decide
  · decide

/-- C6 (amended): on a cache miss with a successful load, scanner.py's
get_star_names returns the export list verbatim (__all__ itself when
defined, otherwise the non-underscore dir names in runtime order), while
star_destroyer.py's revision returns the SORTED export list: the same
elements, ascending and deterministic, but not the original order of
__all__. -/
theorem getStarNames_success (importModule : Str → Option PyModule)
    (cache : List (Str × List Str)) (modpath : Str) (m : PyModule)
    (hc : assocFind cache modpath = none)
    (hl : importModule modpath = some m) :
    (getStarNamesSc importModule cache modpath).names = starExportList m ∧
    (getStarNamesSd importModule cache modpath).names =
      pySorted (starExportList m) ∧
    ((getStarNamesSd importModule cache modpath).names).Perm
      (starExportList m) ∧
    List.Sorted (fun a b : Str => a ≤ b)
      (getStarNamesSd importModule cache modpath).names := by
  unfold getStarNamesSc getStarNamesSd
  rw [hc, hl]
  refine ⟨rfl, rfl, List.perm_insertionSort _ _, ?_⟩
  exact List.sorted_insertionSort _ _

/-- Witness for the amended C6 theorem at the concrete oracle whose
module exports [foo, bar]. -/
theorem getStarNames_success_witness :
    assocFind ([] : List (Str × List Str)) ['p'] = none ∧
    (getStarNamesSc
      (fun _ => some ⟨some [['f', 'o', 'o'], ['b', 'a', 'r']], []⟩)
      [] ['p']).names =
        starExportList ⟨some [['f', 'o', 'o'], ['b', 'a', 'r']], []⟩ ∧
    (getStarNamesSd
      (fun _ => some ⟨some [['f', 'o', 'o'], ['b', 'a', 'r']], []⟩)
      [] ['p']).names =
        pySorted (starExportList ⟨some [['f', 'o', 'o'], ['b', 'a', 'r']], []⟩) := by
  have h := getStarNames_success
    (fun _ => some ⟨some [['f', 'o', 'o'], ['b', 'a', 'r']], []⟩)
    [] ['p'] ⟨some [['f', 'o', 'o'], ['b', 'a', 'r']], []⟩ rfl rfl
  exact ⟨rfl, h.1, h.2.1⟩

/-- C7 (confirmed): when the dynamic load of a module fails, both
revisions of get_star_names report the failure, cache and return the
empty name list, and the failure is non-fatal: the call returns normally
with zero names, and every later query for the same module path hits the
cache and again yields zero names with no further load attempt, so all
subsequent wildcard processing proceeds as if the module exports no
names. -/
theorem getStarNames_load_failure (importModule : Str → Option PyModule)
    (cache : List (Str × List Str)) (modpath : Str)
    (hc : assocFind cache modpath = none)
    (hl : importModule modpath = none) :
    (getStarNamesSd importModule cache modpath).names = [] ∧
    (getStarNamesSd importModule cache modpath).failed = true ∧
    (getStarNamesSc importModule cache modpath).names = [] ∧
    (getStarNamesSc importModule cache modpath).failed = true ∧
    (getStarNamesSd importModule
      (getStarNamesSd importModule cache modpath).cache modpath).names = [] ∧
    (getStarNamesSd importModule
      (getStarNamesSd importModule cache modpath).cache modpath).cache =
      (getStarNamesSd importModule cache modpath).cache := by
  unfold getStarNamesSd getStarNamesSc
  rw [hc, hl]
  simp [assocFind]

/-- Witness for the C7 theorem at a concrete always-failing loader. -/
theorem getStarNames_load_failure_witness :
    (getStarNamesSd (fun _ => none) [] ['p']).names = [] ∧
    (getStarNamesSd (fun _ => none) [] ['p']).failed = true := by
  have h := getStarNames_load_failure (fun _ => none) [] ['p'] rfl rfl
  exact ⟨h.1, h.2.1⟩

/-- A from-import node as the rewrite planner sees it: module spelling,
relative level, and alias list (name, asname). -/
structure ImpFrom where
  module : Str
  level : Nat
  names : List (Str × Option Str)
deriving DecidableEq

/-- The per-site name filter of BaseStarDestroyer.__init__
(star_destroyer.py lines 303-307): of the star names of the resolved
source module, keep those whose importing-module-qualified origin is in
the global used-origins set. -/
def starProvidedNames (starNames : List Str) (allUsed : Finset Str)
    (modpath : Str) : List Str :=
  starNames.filter (fun name => decide ((modpath ++ '.' :: name) ∈ allUsed))

/-- ReplaceStarDestroyer.visit_ImportFrom (star_destroyer.py lines
376-390) for a collected star-import node: when the provided-name list is
empty the code sets new_node = node, and since a change is recorded only
when node != new_node (object identity on AST nodes), NO change is
emitted — the import statement stays; when the list is nonempty the node
is replaced by an explicit from-import of exactly those names. -/
def replaceStarChanges (provided : List Str) (node : ImpFrom) :
    List (ImpFrom × ImpFrom) :=
  if provided.isEmpty then []
  else [(node, ⟨node.module, node.level, provided.map (fun n => (n, none))⟩)]

/-- C3 (code_bug): for a wildcard import whose used-name subset S is
empty — pkg.a exports foo and bar, and neither pkg.b.foo nor pkg.b.bar is
in the global used set — ReplaceStarDestroyer emits NO change at all: it
leaves the import statement unchanged instead of deleting it, although
the tool's own help text says the replace method removes the import when
the kept-name list would be empty. -/
theorem replace_empty_star_not_deleted :
    starProvidedNames [['f', 'o', 'o'], ['b', 'a', 'r']]
        {['p', 'k', 'g', '.', 'b', '.', 'z']} ['p', 'k', 'g', '.', 'b'] = [] ∧
    replaceStarChanges
      (starProvidedNames [['f', 'o', 'o'], ['b', 'a', 'r']]
        {['p', 'k', 'g', '.', 'b', '.', 'z']} ['p', 'k', 'g', '.', 'b'])
      ⟨['p', 'k', 'g', '.', 'a'], 0, [(['*'], none)]⟩ = [] := by
  constructor
  · decide
  · decide

/-- One pending (old_node, new_node) change of a star destroyer as the
edit loop of StarDestroyer.edit_module consumes it: the serialized texts
of both nodes and the recorded source position (0-based line, column). -/
structure Change where
  oldText : Str
  newText : Str
  line : Nat
  col : Nat
deriving DecidableEq

/-- Python str.replace (replace every non-overlapping occurrence, left to
right), assuming a nonempty pattern — node_to_text of an Import,
ImportFrom, Name or Attribute node is never the empty string. -/
def strReplaceAll (old new : Str) : Str → Str
  | [] => []
  | c :: rest =>
    if List.isPrefixOf old (c :: rest)
    then new ++ strReplaceAll old new (rest.drop (old.length - 1))
    else c :: strReplaceAll old new rest
termination_by s => s.length
decreasing_by
  · simp only [List.length_drop, List.length_cons]
    omega
  · simp

/-- Python substring membership x in s. -/
def strContains (needle : Str) : Str → Bool
  | [] => needle.isEmpty
  | c :: t => List.isPrefixOf needle (c :: t) || strContains needle t

/-- The in-memory edit loop of StarDestroyer.edit_module
(star_destroyer.py lines 425-443): for each change in order, Python first
reads lines[line] (an out-of-range recorded line raises IndexError);
if the serialized old text does not occur in that line from the recorded
column on, an error naming the change is printed, followed by that line
and the line AFTER it — whose read raises an uncaught IndexError when
the change was on the last line — and the loop breaks; otherwise the
line is rewritten by replacing the old text in its tail. -/
inductive ProcOutcome where
  | applied (newLines : List Str)
  | mismatch (c : Change)
  | indexError
deriving DecidableEq

def processChanges : List Change → List Str → ProcOutcome
  | [], lines => .applied lines
  | c :: rest, lines =>
    match lines[c.line]? with
    | none => .indexError
    | some ln =>
      if strContains c.oldText (ln.drop c.col) then
        processChanges rest
          (lines.set c.line
            (ln.take c.col ++ strReplaceAll c.oldText c.newText (ln.drop c.col)))
      else
        match lines[c.line + 1]? with
        | none => .indexError
        | some _ => .mismatch c

/-- The write decision of StarDestroyer.edit_module (star_destroyer.py
line 446), exactly as the code has it: write back only when not in
dry-run mode AND at least one edited line is still equal to the
corresponding original line. -/
def writeCondition (dryRun : Bool) (lines originalLines : List Str) : Bool :=
  !dryRun && (lines.zip originalLines).any (fun p => p.1 == p.2)

/-- The per-file result of StarDestroyer.edit_module (star_destroyer.py
lines 420-452): on loop completion the file is written back (seek, write,
truncate — i.e. its disk contents become the edited buffer) only under
writeCondition; on a text mismatch the failure is reported and nothing is
written; a diagnostic read past the buffer end raises an uncaught
IndexError (crash), also with nothing written. -/
inductive FileOutcome where
  | edited (disk : List Str) (wrote : Bool)
  | mismatchAbort (c : Change) (disk : List Str)
  | crash (disk : List Str)
deriving DecidableEq

def editModuleFile (dryRun : Bool) (changes : List Change)
    (origLines : List Str) : FileOutcome :=
  match processChanges changes origLines with
  | .applied newLines =>
    if writeCondition dryRun newLines origLines
    then .edited newLines true
    else .edited origLines false
  | .mismatch c => .mismatchAbort c origLines
  | .indexError => .crash origLines

/-- The edit driver (star_destroyer.py lines 493-501) over a list of
files, each with its pending changes and current disk lines: files are
processed in order; an uncaught exception in one file aborts the whole
run, leaving the remaining files unprocessed. -/
inductive FileResult where
  | done (out : FileOutcome)
  | notReached
deriving DecidableEq

def runEdit (dryRun : Bool) : List (List Change × List Str) → List FileResult
  | [] => []
  | (cs, ls) :: rest =>
    match editModuleFile dryRun cs ls with
    | .crash d => .done (.crash d) :: rest.map (fun _ => .notReached)
    | out => .done out :: runEdit dryRun rest

/-- C4 (code_bug): a pending change whose original text is absent at its
recorded position, with the change recorded on the LAST line of the file,
makes the mismatch diagnostic read the line after the last: an uncaught
IndexError.  The file on disk is left unchanged (nothing was written
before the exception), but the exception propagates out of edit_module,
so the remaining files are never processed — processing of other files
does NOT continue. -/
theorem mismatch_on_last_line_crashes :
    processChanges [⟨['i', 'm', 'p'], [], 0, 0⟩] [['h', 'i']] =
      ProcOutcome.indexError ∧
    runEdit false
        [([⟨['i', 'm', 'p'], [], 0, 0⟩], [['h', 'i']]),
         ([], [['o', 'k']])] =
      [.done (.crash [['h', 'i']]), .notReached] := by
  constructor
  · decide
  · decide

/-- C10 (confirmed): when every pending change is found (the edit loop
completes with edited buffer newLines), the file is rewritten exactly
when dry_run is false and at least one line of the edited buffer still
equals the corresponding original line; in particular a dry run never
writes, and when every edited line differs from its original the file is
left unchanged on disk even in apply mode. -/
theorem editModule_write_condition (dryRun : Bool) (changes : List Change)
    (origLines newLines : List Str)
    (h : processChanges changes origLines = .applied newLines) :
    (editModuleFile dryRun changes origLines = .edited newLines true ↔
      (dryRun = false ∧
        (newLines.zip origLines).any (fun p => p.1 == p.2) = true)) ∧
    (dryRun = true →
      editModuleFile dryRun changes origLines = .edited origLines false) ∧
    ((∀ p ∈ newLines.zip origLines, p.1 ≠ p.2) →
      editModuleFile dryRun changes origLines = .edited origLines false) := by
  have happ : editModuleFile dryRun changes origLines =
      if writeCondition dryRun newLines origLines
      then FileOutcome.edited newLines true
      else FileOutcome.edited origLines false := by
    unfold editModuleFile
    rw [h]
  rw [happ]
  by_cases hw : writeCondition dryRun newLines origLines = true
  · have hw2 := hw
    unfold writeCondition at hw2
    rw [Bool.and_eq_true, Bool.not_eq_true'] at hw2
    rw [if_pos hw]
    refine ⟨⟨fun _ => hw2, fun _ => rfl⟩, ?_, ?_⟩
    · intro hd
      rw [hd] at hw2
      exact absurd hw2.1 (by decide)
    · intro hall
      rcases List.any_eq_true.mp hw2.2 with ⟨p, hp, hpe⟩
      exact absurd (eq_of_beq hpe) (hall p hp)
  · rw [if_neg hw]
    refine ⟨⟨?_, ?_⟩, fun _ => rfl, fun _ => rfl⟩
    · intro he
      rw [FileOutcome.edited.injEq] at he
      exact absurd he.2 (by decide)
    · intro ⟨hd, hany⟩
      exact absurd (by unfold writeCondition; rw [hd, hany]; rfl) hw

/-- Witness for the C10 theorem: an empty change list on a one-line file;
in apply mode (the buffer equals the original) the file is written, and
in dry-run mode it is not. -/
theorem editModule_write_condition_witness :
    processChanges [] [['a']] = ProcOutcome.applied [['a']] ∧
    ((editModuleFile false [] [['a']] = FileOutcome.edited [['a']] true ↔
      (false = false ∧
        (([['a']] : List Str).zip [['a']]).any (fun p => p.1 == p.2) = true)) ∧
    (false = true →
      editModuleFile false [] [['a']] = FileOutcome.edited [['a']] false) ∧
    ((∀ p ∈ ([['a']] : List Str).zip [['a']], p.1 ≠ p.2) →
      editModuleFile false [] [['a']] = FileOutcome.edited [['a']] false)) :=
  ⟨rfl, editModule_write_condition false [] [['a']] [['a']] rfl⟩
